import Mathlib

/-!
Verification of the module-dependency analyser in
`src/generate_obsidian_notes.py`.

The catalog builder (`get_internal_modules`, lines 14-41) and the import
resolver (`parse_imports` with its inner `is_internal`, lines 43-114) are
translated below as executable Lean functions.  Files are modelled by their
path components relative to the project root; a parsed source file is the
list of import nodes that `ast.walk` yields; the outcome of reading and
parsing one file (success, read failure, parse failure) is an explicit sum.
Python string operations are modelled on Lean strings: `s.split('.')[0]`
is the longest dot-free prefix, `Path.with_suffix("")` drops the extension
after the last non-leading, non-trailing dot, and dict assignment is
modelled on an insertion-ordered association list, as Python dicts behave.
-/

/-- A source file below the project root: `dirs` are the directory
components of its relative path, `name` the filename.  Only the tree below
the project root is modelled, so `filepath.parts` of line 25 is
`dirs ++ [name]` here. -/
structure ProjFile where
  dirs : List String
  name : String
  deriving DecidableEq

/-- Python `s.startswith(pre)`, on the code points of the two strings. -/
def pyStartsWith (s pre : String) : Bool := pre.data.isPrefixOf s.data

/-- Python `s.endswith(post)`, on the code points of the two strings. -/
def pyEndsWith (s post : String) : Bool := post.data.isSuffixOf s.data

/-- The text of `s` before its first dot; models Python `s.split('.')[0]`
(lines 85, 111, 113). -/
def topLevel (s : String) : String :=
  String.mk (s.data.takeWhile (fun c => c != '.'))

/-- Models Python `Path(name).with_suffix("")` on a filename: drop the part
from the last dot on, unless that dot is the leading or the trailing
character (pathlib treats those names as having no suffix). -/
def stripLastSuffix (name : String) : String :=
  let cs := name.data
  let afterRev := cs.reverse.takeWhile (fun c => c != '.')
  if afterRev.length = cs.length then name
  else
    let i := cs.length - afterRev.length - 1
    if 0 < i ∧ afterRev.length ≠ 0 then String.mk (cs.take i) else name

/-- Path components joined with dots: `as_posix().replace("/", ".")` of
lines 36 and 38. -/
def joinDot (l : List String) : String := String.intercalate "." l

/-- Path components joined with slashes: `as_posix()` of line 40. -/
def joinSlash (l : List String) : String := String.intercalate "/" l

/-- The `(mod_name, note path)` pair assigned for one file by the loop body
of `get_internal_modules` (lines 30-40): an `__init__.py` file takes its
parent directory as dotted name (the project root name when the parent is
the root), any other file its relative path with the extension stripped;
the value is always the slash-joined relative path without extension. -/
def entryOf (rootName : String) (f : ProjFile) : String × String :=
  let modName :=
    if f.name = "__init__.py" then
      if f.dirs = [] then rootName else joinDot f.dirs
    else joinDot (f.dirs ++ [stripLastSuffix f.name])
  (modName, joinSlash (f.dirs ++ [stripLastSuffix f.name]))

/-- Dict assignment `modules[mod_name] = value` on an insertion-ordered
association list, as Python dicts behave: overwriting keeps the original
key position, a new key is appended. -/
def insertEntry (m : List (String × String)) (e : String × String) :
    List (String × String) :=
  if e.1 ∈ m.map Prod.fst then
    m.map (fun p => if p.1 = e.1 then e else p)
  else m ++ [e]

/-- One iteration of the loop of `get_internal_modules` (lines 23-40):
skip files under a `.venv` directory, skip filenames starting with `__`,
otherwise assign the entry for the file. -/
def catalogStep (rootName : String) (modules : List (String × String))
    (f : ProjFile) : List (String × String) :=
  if ".venv" ∈ f.dirs then modules
  else if pyStartsWith f.name "__" then modules
  else insertEntry modules (entryOf rootName f)

/-- `get_internal_modules` (lines 14-41): fold the catalog loop over the
files that `rglob("*.py")` returns, i.e. the files of the tree whose name
ends with `.py`, in traversal order. -/
def get_internal_modules (rootName : String) (files : List ProjFile) :
    List (String × String) :=
  (files.filter (fun f => pyEndsWith f.name ".py")).foldl
    (catalogStep rootName) []

/-- The check that the two `continue` statements of lines 24-29 let a
globbed file through. -/
def notSkipped (f : ProjFile) : Bool :=
  !(decide (".venv" ∈ f.dirs)) && !(pyStartsWith f.name "__")

/-- Eligibility of a file for the catalog: recognized extension, not under
`.venv`, name not starting with `__`. -/
def eligible (f : ProjFile) : Bool :=
  pyEndsWith f.name ".py" && notSkipped f

/-- An import node as `ast.walk` yields it (lines 76-96): a plain `import`
with its alias names, or a `from ... import` with its optional module,
relative level and imported names. -/
inductive Stmt where
  | imp (names : List String)
  | impFrom (module : Option String) (level : Nat) (names : List String)

/-- The pair of accumulated dependency sets `(internal_deps, external_deps)`
of lines 63-64. -/
abbrev Deps := Finset String × Finset String

/-- `is_internal` (lines 66-74): an exact catalog key matches itself;
otherwise the first key, in the dict key order, ending with a dot followed
by the candidate matches; otherwise there is no match. -/
def is_internal (internal_modules : List (String × String))
    (module_str : String) : Option String :=
  if module_str ∈ internal_modules.map Prod.fst then some module_str
  else (internal_modules.map Prod.fst).find?
    (fun key => pyEndsWith key ("." ++ module_str))

/-- The body of the `ast.Import` alias loop (lines 78-85). -/
def impStep (internal_modules : List (String × String)) (acc : Deps)
    (mod : String) : Deps :=
  match is_internal internal_modules mod with
  | some m => (insert m acc.1, acc.2)
  | none => (acc.1, insert (topLevel mod) acc.2)

/-- The body of the `ast.ImportFrom` alias loop (lines 94-113), with the
combined candidate of lines 97-100 inlined: a `*` alias is skipped; the
combined candidate `mod_full.name` (just the alias name when `mod_full` is
empty) is tried first; on failure a nonempty `mod_full` is tried alone and
on a second failure its top-level text goes to the external set, while an
empty `mod_full` sends the top-level text of the alias name there. -/
def fromStep (internal_modules : List (String × String)) (mod_full : String)
    (acc : Deps) (nm : String) : Deps :=
  if nm = "*" then acc
  else
    match is_internal internal_modules
        (if mod_full ≠ "" then mod_full ++ "." ++ nm else nm) with
    | some m => (insert m acc.1, acc.2)
    | none =>
      if mod_full ≠ "" then
        match is_internal internal_modules mod_full with
        | some m => (insert m acc.1, acc.2)
        | none => (acc.1, insert (topLevel mod_full) acc.2)
      else (acc.1, insert (topLevel nm) acc.2)

/-- Processing of one walked node in `parse_imports` (lines 76-113).  The
`level` test of lines 90-93 assigns the same `mod_full` in both branches,
exactly as the source does. -/
def processStmt (internal_modules : List (String × String)) (acc : Deps) :
    Stmt → Deps
  | .imp names => names.foldl (impStep internal_modules) acc
  | .impFrom module level names =>
    let mod_full := if level > 0 then module.getD "" else module.getD ""
    names.foldl (fromStep internal_modules mod_full) acc

/-- The fate of one file before resolution: the read of line 53 failed, the
parse of line 58 failed, or the walk produced a list of import nodes. -/
inductive SourceInput where
  | readErr (msg : String)
  | parseErr (msg : String)
  | parsed (nodes : List Stmt)

/-- `parse_imports` (lines 43-114): the dependency sets together with the
diagnostics printed to stderr.  A read failure or a parse failure yields
empty sets and one diagnostic (lines 52-61); a parsed file folds the node
processing over the walked nodes starting from two empty sets. -/
def parse_imports (fp : String) (internal_modules : List (String × String)) :
    SourceInput → Deps × List String
  | .readErr msg => ((∅, ∅), ["Error reading " ++ fp ++ ": " ++ msg])
  | .parseErr msg => ((∅, ∅), ["Syntax error in " ++ fp ++ ": " ++ msg])
  | .parsed nodes =>
    (nodes.foldl (processStmt internal_modules) (∅, ∅), [])

/-- The per-file resolution pass of `write_markdown_nodes` (line 157):
every file of the run is resolved against the one catalog. -/
def resolveProject (internal_modules : List (String × String))
    (files : List (String × SourceInput)) : List (Deps × List String) :=
  files.map (fun p => parse_imports p.1 internal_modules p.2)

/-- Invariant carried by the accumulated dependency sets: internal names
are catalog keys, external names are dot-free. -/
def DepsInv (keys : List String) (acc : Deps) : Prop :=
  (∀ x ∈ acc.1, x ∈ keys) ∧ ∀ x ∈ acc.2, '.' ∉ x.data

theorem foldl_preserve {α β : Type} {P : β → Prop} {g : β → α → β}
    (h : ∀ b a, P b → P (g b a)) :
    ∀ (l : List α) (b : β), P b → P (l.foldl g b) := by
  intro l
  induction l with
  | nil => intro b hb; simpa using hb
  | cons a t ih => intro b hb; simpa using ih (g b a) (h b a hb)

theorem is_internal_mem {cat : List (String × String)} {s k : String}
    (h : is_internal cat s = some k) : k ∈ cat.map Prod.fst := by
  unfold is_internal at h
  by_cases hs : s ∈ cat.map Prod.fst
  · rw [if_pos hs] at h
    cases h
    exact hs
  · rw [if_neg hs] at h
    exact List.mem_of_find?_eq_some h

theorem topLevel_no_dot (s : String) : '.' ∉ (topLevel s).data := by
  intro hmem
  have hmem2 : '.' ∈ s.data.takeWhile (fun c => c != '.') := hmem
  have h := List.mem_takeWhile_imp (p := fun c => c != '.') hmem2
  simp at h

theorem dropWhile_head_not {α : Type} {p : α → Bool} :
    ∀ {l : List α} {y : α} {t : List α}, l.dropWhile p = y :: t → p y = false := by
  intro l
  induction l with
  | nil => intro y t h; simp [List.dropWhile] at h
  | cons a l ih =>
    intro y t h
    by_cases hp : p a
    · rw [List.dropWhile_cons, if_pos hp] at h
      exact ih h
    · rw [List.dropWhile_cons, if_neg hp] at h
      cases h
      simpa using hp

theorem topLevel_spec (s : String) :
    ∃ rest, s.data = (topLevel s).data ++ rest ∧ '.' ∉ (topLevel s).data ∧
      (rest = [] ∨ ∃ t, rest = '.' :: t) := by
  refine ⟨s.data.dropWhile (fun c => c != '.'), ?_, topLevel_no_dot s, ?_⟩
  · have h := List.takeWhile_append_dropWhile (p := fun c => c != '.') (l := s.data)
    rw [topLevel]
    exact h.symm
  · rcases hd : s.data.dropWhile (fun c => c != '.') with _ | ⟨y, t⟩
    · exact Or.inl rfl
    · refine Or.inr ⟨t, ?_⟩
      have hy : (y != '.') = false := dropWhile_head_not (p := fun c => c != '.') hd
      have hy2 : y = '.' := by simpa using hy
      rw [hy2]

theorem find?_first {α : Type} (p : α → Bool) :
    ∀ (l : List α) (a : α), l.find? p = some a →
      ∃ l1 l2, l = l1 ++ a :: l2 ∧ p a = true ∧ ∀ x ∈ l1, p x = false := by
  intro l
  induction l with
  | nil => intro a h; simp [List.find?] at h
  | cons b t ih =>
    intro a h
    by_cases hb : p b
    · rw [List.find?_cons_of_pos _ hb] at h
      cases h
      exact ⟨[], t, rfl, hb, by simp⟩
    · rw [List.find?_cons_of_neg _ (by simpa using hb)] at h
      rcases ih a h with ⟨l1, l2, rfl, hpa, hl1⟩
      refine ⟨b :: l1, l2, rfl, hpa, ?_⟩
      intro x hx
      rcases List.mem_cons.mp hx with rfl | hx
      · simpa using hb
      · exact hl1 x hx

theorem depsInv_insert_internal {K : List String} {acc : Deps}
    (h : DepsInv K acc) {m : String} (hm : m ∈ K) :
    DepsInv K (insert m acc.1, acc.2) := by
  refine ⟨?_, h.2⟩
  intro x hx
  rcases Finset.mem_insert.mp hx with rfl | hx
  · exact hm
  · exact h.1 x hx

theorem depsInv_insert_external {K : List String} {acc : Deps}
    (h : DepsInv K acc) (s : String) :
    DepsInv K (acc.1, insert (topLevel s) acc.2) := by
  refine ⟨h.1, ?_⟩
  intro x hx
  rcases Finset.mem_insert.mp hx with rfl | hx
  · exact topLevel_no_dot s
  · exact h.2 x hx

theorem impStep_inv {cat : List (String × String)} {acc : Deps}
    (h : DepsInv (cat.map Prod.fst) acc) (a : String) :
    DepsInv (cat.map Prod.fst) (impStep cat acc a) := by
  rcases hi : is_internal cat a with _ | m
  · simpa [impStep, hi] using depsInv_insert_external h a
  · simpa [impStep, hi] using depsInv_insert_internal h (is_internal_mem hi)

theorem fromStep_inv {cat : List (String × String)} (mod_full : String)
    {acc : Deps} (h : DepsInv (cat.map Prod.fst) acc) (nm : String) :
    DepsInv (cat.map Prod.fst) (fromStep cat mod_full acc nm) := by
  by_cases hstar : nm = "*"
  · simpa [fromStep, hstar] using h
  · by_cases hmf : mod_full = ""
    · rcases hc : is_internal cat nm with _ | m
      · simpa [fromStep, hstar, hmf, hc] using depsInv_insert_external h nm
      · simpa [fromStep, hstar, hmf, hc] using
          depsInv_insert_internal h (is_internal_mem hc)
    · rcases hc : is_internal cat (mod_full ++ "." ++ nm) with _ | m
      · rcases h2 : is_internal cat mod_full with _ | m2
        · simpa [fromStep, hstar, hmf, hc, h2] using
            depsInv_insert_external h mod_full
        · simpa [fromStep, hstar, hmf, hc, h2] using
            depsInv_insert_internal h (is_internal_mem h2)
      · simpa [fromStep, hstar, hmf, hc] using
          depsInv_insert_internal h (is_internal_mem hc)

theorem processStmt_inv {cat : List (String × String)} (st : Stmt)
    {acc : Deps} (h : DepsInv (cat.map Prod.fst) acc) :
    DepsInv (cat.map Prod.fst) (processStmt cat acc st) := by
  cases st with
  | imp names =>
    have hres := foldl_preserve (P := DepsInv (cat.map Prod.fst))
      (g := impStep cat) (fun b a hb => impStep_inv hb a) names acc h
    simpa [processStmt] using hres
  | impFrom module level names =>
    have hres := foldl_preserve (P := DepsInv (cat.map Prod.fst))
      (g := fromStep cat (if level > 0 then module.getD "" else module.getD ""))
      (fun b a hb =>
        fromStep_inv (if level > 0 then module.getD "" else module.getD "") hb a)
      names acc h
    simpa [processStmt] using hres

theorem depsInv_empty (K : List String) : DepsInv K ((∅ : Finset String), (∅ : Finset String)) := by
  constructor <;> simp

theorem parse_imports_inv (fp : String) (cat : List (String × String))
    (inp : SourceInput) :
    DepsInv (cat.map Prod.fst) (parse_imports fp cat inp).1 := by
  cases inp with
  | readErr m => exact depsInv_empty _
  | parseErr m => exact depsInv_empty _
  | parsed nodes =>
    exact foldl_preserve (fun b a hb => processStmt_inv a hb) nodes (∅, ∅)
      (depsInv_empty _)

theorem filter_filter_and {α : Type} (p q : α → Bool) :
    ∀ l : List α, (l.filter p).filter q = l.filter (fun a => p a && q a) := by
  intro l
  induction l with
  | nil => rfl
  | cons a t ih =>
    cases hp : p a <;> cases hq : q a <;>
      simp [List.filter_cons, hp, hq, ih]

theorem catalog_loop_eq (rootName : String) :
    ∀ (l : List ProjFile) (m : List (String × String)),
      l.foldl (catalogStep rootName) m =
        ((l.filter notSkipped).map (entryOf rootName)).foldl insertEntry m := by
  intro l
  induction l with
  | nil => intro m; rfl
  | cons f t ih =>
    intro m
    by_cases hv : ".venv" ∈ f.dirs
    · have hns : notSkipped f = false := by simp [notSkipped, hv]
      simp only [List.foldl_cons, List.filter_cons, hns, cond_false,
        Bool.false_eq_true, if_false]
      rw [catalogStep, if_pos hv]
      exact ih m
    · cases hd : pyStartsWith f.name "__" with
      | true =>
        have hns : notSkipped f = false := by simp [notSkipped, hv, hd]
        simp only [List.foldl_cons, List.filter_cons, hns, cond_false,
          Bool.false_eq_true, if_false]
        rw [catalogStep, if_neg hv, if_pos (by simp [hd])]
        exact ih m
      | false =>
        have hns : notSkipped f = true := by simp [notSkipped, hv, hd]
        simp only [List.foldl_cons, List.filter_cons, hns, cond_true, if_true,
          List.map_cons]
        rw [catalogStep, if_neg hv, if_neg (by simp [hd])]
        exact ih (insertEntry m (entryOf rootName f))

theorem catalog_eq (rootName : String) (files : List ProjFile) :
    get_internal_modules rootName files =
      ((files.filter eligible).map (entryOf rootName)).foldl insertEntry [] := by
  unfold get_internal_modules
  rw [catalog_loop_eq, filter_filter_and]
  rfl

theorem mem_keys_insertEntry {m : List (String × String)}
    {e : String × String} {a : String} (h : a ∈ m.map Prod.fst) :
    a ∈ (insertEntry m e).map Prod.fst := by
  unfold insertEntry
  by_cases he : e.1 ∈ m.map Prod.fst
  · rw [if_pos he]
    rcases List.mem_map.mp h with ⟨p, hp, rfl⟩
    refine List.mem_map.mpr
      ⟨if p.1 = e.1 then e else p, List.mem_map_of_mem _ hp, ?_⟩
    by_cases hpe : p.1 = e.1
    · simp [hpe]
    · simp [hpe]
  · rw [if_neg he]
    simp [h]

theorem key_self_insertEntry (m : List (String × String))
    (e : String × String) : e.1 ∈ (insertEntry m e).map Prod.fst := by
  unfold insertEntry
  by_cases he : e.1 ∈ m.map Prod.fst
  · rw [if_pos he]
    rcases List.mem_map.mp he with ⟨p, hp, hpe⟩
    refine List.mem_map.mpr
      ⟨if p.1 = e.1 then e else p, List.mem_map_of_mem _ hp, ?_⟩
    simp [hpe]
  · rw [if_neg he]
    simp

theorem keys_foldl_insertEntry_mono {a : String} :
    ∀ (es : List (String × String)) (m : List (String × String)),
      a ∈ m.map Prod.fst → a ∈ (es.foldl insertEntry m).map Prod.fst := by
  intro es
  induction es with
  | nil => intro m h; simpa using h
  | cons e t ih =>
    intro m h
    simpa using ih (insertEntry m e) (mem_keys_insertEntry h)

theorem mem_keys_foldl_insertEntry {e : String × String} :
    ∀ (es : List (String × String)) (m : List (String × String)),
      e ∈ es → e.1 ∈ (es.foldl insertEntry m).map Prod.fst := by
  intro es
  induction es with
  | nil => intro m h; simp at h
  | cons e0 t ih =>
    intro m h
    rcases List.mem_cons.mp h with rfl | h
    · simpa using
        keys_foldl_insertEntry_mono t (insertEntry m e) (key_self_insertEntry m e)
    · simpa using ih (insertEntry m e0) h

/-- Claim C9: for every catalog and every source text, every element of the
internal-dependency set returned by the resolver is a key of the
ModuleCatalog it was resolved against. -/
theorem c9_internal_deps_are_keys (fp : String)
    (cat : List (String × String)) (inp : SourceInput) :
    ∀ x ∈ (parse_imports fp cat inp).1.1, x ∈ cat.map Prod.fst :=
  fun x hx => (parse_imports_inv fp cat inp).1 x hx

theorem c9_witness :
    "a" ∈ ([("a", "a")] : List (String × String)).map Prod.fst :=
  c9_internal_deps_are_keys "f.py" [("a", "a")]
    (SourceInput.parsed [Stmt.imp ["a"]]) "a" (by decide)

/-- Claim C1 as stated is false on the code: with catalog key `a` and the
source `import a` followed by `import a.b`, the name `a` is recorded
internally by the first import, while the second fails to resolve and
records its top-level text `a` externally, so the two sets share `a`. -/
theorem c1_counterexample :
    ("a" ∈ (parse_imports "f.py" [("a", "a")]
        (.parsed [.imp ["a"], .imp ["a.b"]])).1.1) ∧
    ("a" ∈ (parse_imports "f.py" [("a", "a")]
        (.parsed [.imp ["a"], .imp ["a.b"]])).1.2) ∧
    ¬((parse_imports "f.py" [("a", "a")]
        (.parsed [.imp ["a"], .imp ["a.b"]])).1.1 ∩
      (parse_imports "f.py" [("a", "a")]
        (.parsed [.imp ["a"], .imp ["a.b"]])).1.2 = ∅) := by
  decide

/-- Claim C1 (amended): the two sets are disjoint whenever every catalog
key contains a dot, because internal entries are always catalog keys and
external entries are always dot-free top-level components; with a dot-free
catalog key the sets can intersect, as the counterexample shows. -/
theorem c1_amended (fp : String) (cat : List (String × String))
    (inp : SourceInput)
    (hkeys : ∀ k ∈ cat.map Prod.fst, '.' ∈ k.data) :
    (parse_imports fp cat inp).1.1 ∩ (parse_imports fp cat inp).1.2 = ∅ := by
  have hinv := parse_imports_inv fp cat inp
  apply Finset.eq_empty_iff_forall_not_mem.mpr
  intro x hx
  rcases Finset.mem_inter.mp hx with ⟨h1, h2⟩
  exact hinv.2 x h2 (hkeys x (hinv.1 x h1))

theorem c1_amended_witness :
    (parse_imports "f.py" [("p.m", "p/m")]
        (.parsed [.imp ["p.m"], .imp ["os"]])).1.1 ∩
      (parse_imports "f.py" [("p.m", "p/m")]
        (.parsed [.imp ["p.m"], .imp ["os"]])).1.2 = ∅ :=
  c1_amended "f.py" [("p.m", "p/m")]
    (.parsed [.imp ["p.m"], .imp ["os"]]) (by decide)

/-- Claim C2: the internal-match rule returns the candidate itself when it
is exactly a catalog key; otherwise it returns the first catalog key, in
the natural key order, that ends with a dot followed by the candidate;
otherwise it returns no match. -/
theorem c2_internal_match_rule (cat : List (String × String)) (nm : String) :
    (nm ∈ cat.map Prod.fst → is_internal cat nm = some nm) ∧
    (nm ∉ cat.map Prod.fst → ∀ k, is_internal cat nm = some k →
      ∃ l1 l2, cat.map Prod.fst = l1 ++ k :: l2 ∧
        pyEndsWith k ("." ++ nm) = true ∧
        ∀ k2 ∈ l1, pyEndsWith k2 ("." ++ nm) = false) ∧
    ((∀ k ∈ cat.map Prod.fst, k ≠ nm ∧ pyEndsWith k ("." ++ nm) = false) →
      is_internal cat nm = none) := by
  refine ⟨?_, ?_, ?_⟩
  · intro h
    simp [is_internal, h]
  · intro h k hk
    rw [is_internal, if_neg h] at hk
    exact find?_first _ _ _ hk
  · intro h
    have hnm : nm ∉ cat.map Prod.fst := fun hmem => (h nm hmem).1 rfl
    rw [is_internal, if_neg hnm, List.find?_eq_none]
    intro x hx
    simp [(h x hx).2]

theorem c2_witness :
    ∃ l1 l2,
      ([("util", "util"), ("base.bots", "base/bots")] :
          List (String × String)).map Prod.fst = l1 ++ "base.bots" :: l2 ∧
        pyEndsWith "base.bots" ("." ++ "bots") = true ∧
        ∀ k2 ∈ l1, pyEndsWith k2 ("." ++ "bots") = false :=
  (c2_internal_match_rule [("util", "util"), ("base.bots", "base/bots")]
      "bots").2.1 (by decide) "base.bots" (by decide)

/-- Claim C3: for a from-import clause with module `M` and imported name
`A`, absolute or relative, the resolver first tries the combined candidate
`M.A`, then `M` alone, and otherwise records the top-level component of
`M` externally. -/
theorem c3_from_import_rule (cat : List (String × String)) (M : String)
    (lvl : Nat) (A : String) (acc : Deps) (hM : M ≠ "") (hA : A ≠ "*") :
    processStmt cat acc (.impFrom (some M) lvl [A]) =
      match is_internal cat (M ++ "." ++ A) with
      | some k => (insert k acc.1, acc.2)
      | none =>
        match is_internal cat M with
        | some k => (insert k acc.1, acc.2)
        | none => (acc.1, insert (topLevel M) acc.2) := by
  have hfold : processStmt cat acc (.impFrom (some M) lvl [A]) =
      fromStep cat M acc A := by
    simp [processStmt]
  rw [hfold, fromStep, if_neg hA]
  rcases h1 : is_internal cat (M ++ "." ++ A) with _ | k
  · rcases h2 : is_internal cat M with _ | k2
    · simp [hM, h1, h2]
    · simp [hM, h1, h2]
  · simp [hM, h1]

theorem c3_witness :
    processStmt [("pkg.mod", "pkg/mod")]
        ((∅ : Finset String), (∅ : Finset String))
        (.impFrom (some "pkg") 0 ["mod"]) =
      (insert "pkg.mod" (∅ : Finset String), (∅ : Finset String)) := by
  have h := c3_from_import_rule [("pkg.mod", "pkg/mod")] "pkg" 0 "mod"
    ((∅ : Finset String), (∅ : Finset String)) (by decide) (by decide)
  exact h.trans (by decide)

/-- Claim C4: a plain import checks the full dotted path against the
internal-match rule; on success the matched catalog key joins the internal
set, otherwise only the text before the first dot of the imported path
joins the external set. -/
theorem c4_plain_import_rule (cat : List (String × String)) (X : String)
    (acc : Deps) :
    (∀ k, is_internal cat X = some k →
      processStmt cat acc (.imp [X]) = (insert k acc.1, acc.2) ∧
        k ∈ cat.map Prod.fst) ∧
    (is_internal cat X = none →
      processStmt cat acc (.imp [X]) = (acc.1, insert (topLevel X) acc.2) ∧
      ∃ rest, X.data = (topLevel X).data ++ rest ∧ '.' ∉ (topLevel X).data ∧
        (rest = [] ∨ ∃ t, rest = '.' :: t)) := by
  constructor
  · intro k hk
    exact ⟨by simp [processStmt, impStep, hk], is_internal_mem hk⟩
  · intro h
    exact ⟨by simp [processStmt, impStep, h], topLevel_spec X⟩

theorem c4_witness :
    processStmt [("pkg.mod", "pkg/mod")]
        ((∅ : Finset String), (∅ : Finset String)) (.imp ["pkg.mod"]) =
      (insert "pkg.mod" (∅ : Finset String), (∅ : Finset String)) ∧
    "pkg.mod" ∈
      ([("pkg.mod", "pkg/mod")] : List (String × String)).map Prod.fst :=
  (c4_plain_import_rule [("pkg.mod", "pkg/mod")] "pkg.mod" (∅, ∅)).1
    "pkg.mod" (by decide)

/-- Claim C8: a wildcard from-import contributes nothing to either set, so
a file containing only a wildcard import yields two empty sets. -/
theorem c8_wildcard_contributes_nothing (cat : List (String × String))
    (M : Option String) (lvl : Nat) (acc : Deps) (fp : String) :
    processStmt cat acc (.impFrom M lvl ["*"]) = acc ∧
    (parse_imports fp cat (.parsed [.impFrom M lvl ["*"]])).1 =
      ((∅ : Finset String), (∅ : Finset String)) := by
  constructor
  · simp [processStmt, fromStep]
  · simp [parse_imports, processStmt, fromStep]

/-- Claim C10: a relative from-import with an omitted module whose imported
name fails to resolve records the top-level component of the imported name
itself in the external set. -/
theorem c10_relative_bare_import_external (cat : List (String × String))
    (A : String) (lvl : Nat) (acc : Deps) (hA : A ≠ "*")
    (h : is_internal cat A = none) :
    processStmt cat acc (.impFrom none lvl [A]) =
      (acc.1, insert (topLevel A) acc.2) := by
  simp [processStmt, fromStep, hA, h]

theorem c10_witness :
    processStmt [] ((∅ : Finset String), (∅ : Finset String))
        (.impFrom none 1 ["foo.bar"]) =
      ((∅ : Finset String), insert "foo" (∅ : Finset String)) := by
  have h := c10_relative_bare_import_external [] "foo.bar" 1
    ((∅ : Finset String), (∅ : Finset String)) (by decide) (by decide)
  exact h.trans (by decide)

/-- Claim C7: an unreadable or unparsable file yields an empty
DependencyRecord, emits exactly one diagnostic on the error channel
instead of raising, and the per-file pass still processes every other
file of the run unchanged. -/
theorem c7_parse_failure_empty_record (fp msg : String)
    (cat : List (String × String))
    (pre post : List (String × SourceInput)) :
    (parse_imports fp cat (.readErr msg)).1 =
        ((∅ : Finset String), (∅ : Finset String)) ∧
    (parse_imports fp cat (.readErr msg)).2.length = 1 ∧
    (parse_imports fp cat (.parseErr msg)).1 =
        ((∅ : Finset String), (∅ : Finset String)) ∧
    (parse_imports fp cat (.parseErr msg)).2.length = 1 ∧
    resolveProject cat (pre ++ (fp, .readErr msg) :: post) =
      resolveProject cat pre ++
        parse_imports fp cat (.readErr msg) :: resolveProject cat post ∧
    (resolveProject cat (pre ++ (fp, .parseErr msg) :: post)).length =
      pre.length + 1 + post.length := by
  refine ⟨rfl, rfl, rfl, rfl, ?_, ?_⟩
  · simp [resolveProject]
  · simp only [resolveProject, List.length_map, List.length_append,
      List.length_cons]
    omega

theorem eligible_init_false {f : ProjFile} (h : f.name = "__init__.py") :
    eligible f = false := by
  have hst : pyStartsWith f.name "__" = true := by rw [h]; decide
  simp [eligible, notSkipped, hst]

/-- Claim C5 as stated is false on the code: the double-underscore filter
of line 28 skips every `__init__.py` before the initializer branch of
lines 31-36 can run, so the tree containing only `pkg/__init__.py` yields
an empty catalog, not the entry from `pkg` to `pkg/__init__` that the
claim demands. -/
theorem c5_counterexample :
    get_internal_modules "proj" [⟨["pkg"], "__init__.py"⟩] = [] ∧
    ("pkg", "pkg/__init__") ∉
      get_internal_modules "proj" [⟨["pkg"], "__init__.py"⟩] := by
  decide

/-- Claim C5 (amended): package-initializer files never produce a catalog
entry, because their filename starts with the reserved double-underscore
prefix; removing every `__init__.py` from the tree leaves the catalog
unchanged, so the initializer naming branch is unreachable. -/
theorem c5_amended (rootName : String) (files : List ProjFile) :
    get_internal_modules rootName
        (files.filter (fun f => f.name != "__init__.py")) =
      get_internal_modules rootName files := by
  rw [catalog_eq, catalog_eq, filter_filter_and]
  have hfe : files.filter (fun f => (f.name != "__init__.py") && eligible f) =
      files.filter eligible := by
    apply List.filter_congr
    intro f hf
    cases he : eligible f
    · simp
    · have hn : (f.name != "__init__.py") = true := by
        by_cases h0 : f.name = "__init__.py"
        · rw [eligible_init_false h0] at he
          cases he
        · simpa using h0
      simp [hn]
  rw [hfe]

/-- Claim C6: the catalog is built from exactly the eligible files — those
with the `.py` extension, not under `.venv`, and whose name does not start
with `__` — each contributing exactly one assignment of its dotted name to
its relative path without extension, in traversal order; and the dotted
name of every eligible file is a key of the final catalog. -/
theorem c6_catalog_entries (rootName : String) (files : List ProjFile) :
    get_internal_modules rootName files =
      ((files.filter eligible).map (entryOf rootName)).foldl insertEntry [] ∧
    ∀ f ∈ files, eligible f = true →
      (entryOf rootName f).1 ∈
        (get_internal_modules rootName files).map Prod.fst := by
  refine ⟨catalog_eq rootName files, ?_⟩
  intro f hf he
  rw [catalog_eq]
  apply mem_keys_foldl_insertEntry
  exact List.mem_map_of_mem _ (List.mem_filter.mpr ⟨hf, he⟩)

theorem c6_witness :
    (entryOf "proj" (ProjFile.mk ["base"] "constant.py")).1 ∈
      (get_internal_modules "proj"
        [ProjFile.mk ["base"] "constant.py"]).map Prod.fst :=
  (c6_catalog_entries "proj" [ProjFile.mk ["base"] "constant.py"]).2
    (ProjFile.mk ["base"] "constant.py") (by decide) (by decide)
